import Mathlib

/-!
Verification of the bandwidth allocator (fractional knapsack) in `src/code.c`.

The C program stores each task as a struct with a name, a `double` demand,
an `int` priority, a derived `double` ratio and a `double` allocated field.
Real-valued quantities (`double` in C) are modelled as exact rationals `ℚ`;
the `int` priority is modelled as `ℤ`.  The allocation pass of `main`
(lines 139-165) is modelled as a structurally recursive function over the
ranked task list, threading the remaining pool and the accumulated value.
-/

namespace BandwidthAlloc

/-- A task record, mirroring `struct Task` of `src/code.c` (lines 36-42). -/
structure Task where
  name : String
  demand : ℚ
  priority : ℤ
  ratio : ℚ
  allocated : ℚ
  deriving Repr, DecidableEq

/-- The raw per-task input read from the user (name, demand, priority),
before the ratio is derived and `allocated` is initialised. -/
structure RawTask where
  name : String
  demand : ℚ
  priority : ℤ
  deriving Repr, DecidableEq

/-- The ratio computation of `main`, lines 120-127 of `src/code.c`:
`priority / demand` when `demand > 0`, otherwise the sentinel `1e9` when
`priority > 0` and `0` when both are zero. -/
def computeRatio (priority : ℤ) (demand : ℚ) : ℚ :=
  if 0 < demand then (priority : ℚ) / demand
  else if 0 < priority then 1000000000 else 0

/-- Construction of a task from its raw input (lines 110-130 of
`src/code.c`): the ratio is derived once and `allocated` starts at `0`. -/
def mkTask (r : RawTask) : Task :=
  ⟨r.name, r.demand, r.priority, computeRatio r.priority r.demand, 0⟩

/-- The qsort comparator `compareTasks` of `src/code.c` (lines 54-67):
`-1` when `b`'s ratio is below `a`'s, `1` when it is above, `0` on ties. -/
def compareTasks (a b : Task) : Int :=
  if b.ratio < a.ratio then -1
  else if a.ratio < b.ratio then 1
  else 0

/-- The ordering induced by `compareTasks`: `a` may come no later than `b`
exactly when the comparator does not ask to put `b` first. -/
def taskLe (a b : Task) : Prop := compareTasks a b ≤ 0

instance : DecidableRel taskLe :=
  fun a b => decidable_of_iff (compareTasks a b ≤ 0) Iff.rfl

theorem taskLe_iff (a b : Task) : taskLe a b ↔ b.ratio ≤ a.ratio := by
  unfold taskLe compareTasks
  split
  · rename_i h
    simp [le_of_lt h]
  · split
    · rename_i h1 h2
      constructor
      · intro h
        exact absurd h (by norm_num)
      · intro h
        exact absurd (lt_of_lt_of_le h2 h) (lt_irrefl _)
    · rename_i h1 h2
      simp [le_of_not_lt h2]

instance : IsTotal Task taskLe :=
  ⟨fun a b => by
    rw [taskLe_iff, taskLe_iff]
    exact le_total b.ratio a.ratio⟩

instance : IsTrans Task taskLe :=
  ⟨fun a b c hab hbc => by
    rw [taskLe_iff] at hab hbc ⊢
    exact le_trans hbc hab⟩

/-- Modelled from the spec: the program sorts with the C library `qsort`
(line 135 of `src/code.c`), whose algorithm is not part of this repository
and whose order on ties the C standard leaves unspecified.  The spec fixes
the order: descending by ratio with ties kept in their original relative
order ("Ties: stable, original relative order preserved").  `rank` is
therefore a stable sort (insertion sort) along the order `taskLe`, which is
exactly the order described by the source comparator `compareTasks`. -/
def rank (l : List Task) : List Task := List.insertionSort taskLe l

/-- The allocation loop of `main`, lines 139-165 of `src/code.c`.  Given
the remaining pool and the ranked tasks, it returns the updated tasks, the
final remaining pool and the total priority value achieved.  The loop
breaks as soon as the pool is `≤ 0`; a task whose demand fits the pool is
fully satisfied and credits its whole priority; otherwise the task absorbs
the whole pool and credits the corresponding fraction of its priority. -/
def allocGo : ℚ → List Task → List Task × ℚ × ℚ
  | r, [] => ([], r, 0)
  | r, t :: ts =>
    if r ≤ 0 then (t :: ts, r, 0)
    else if t.demand ≤ r then
      let res := allocGo (r - t.demand) ts
      ({ t with allocated := t.demand } :: res.1, res.2.1, (t.priority : ℚ) + res.2.2)
    else
      ({ t with allocated := r } :: ts, 0, r / t.demand * (t.priority : ℚ))

/-- The observable outcome of a full run: the tasks in ranked order with
their final `allocated` fields, the remaining pool, and the total priority
value achieved. -/
structure RunResult where
  tasks : List Task
  remaining : ℚ
  valueAchieved : ℚ
  deriving Repr

/-- A complete run of the allocator on the raw inputs: build the tasks,
rank them, then run the allocation loop with the configured capacity. -/
def runAllocator (capacity : ℚ) (raws : List RawTask) : RunResult :=
  let res := allocGo capacity (rank (raws.map mkTask))
  ⟨res.1, res.2.1, res.2.2⟩

/-- The sum of the final `allocated` fields of a task list. -/
def sumAllocated (l : List Task) : ℚ := (l.map Task.allocated).sum

/-- The sum of the demands of the raw inputs. -/
def sumDemand (raws : List RawTask) : ℚ := (raws.map RawTask.demand).sum

/-- The fields of a task other than `allocated`. -/
def taskFields (t : Task) : String × ℚ × ℤ × ℚ := (t.name, t.demand, t.priority, t.ratio)

/-- The successive values taken by the pool variable `totalBandwidth`
during the allocation loop of `main` (lines 139-165): the initial value,
then the value after each executed iteration; the trace stops where the
loop breaks. -/
def poolTrace : ℚ → List Task → List ℚ
  | r, [] => [r]
  | r, t :: ts =>
    if r ≤ 0 then [r]
    else if t.demand ≤ r then r :: poolTrace (r - t.demand) ts
    else [r, 0]

/-- The three ways `main` can end (lines 88-91, 96-99 and 198 of
`src/code.c`): early exit when the entered task count is not positive,
fatal exit when the task storage cannot be obtained, or a completed run. -/
inductive MainOutcome where
  | earlyExit
  | memFail
  | completed (r : RunResult)

/-- The control flow of `main`: the count check (line 88) comes before the
memory allocation (lines 95-99); only then are the tasks read, ranked and
allocated.  Whether the storage can be obtained is an environment fact,
passed as the flag `mallocOk`. -/
def mainModel (mallocOk : Bool) (capacity : ℚ) (numTasks : ℤ) (raws : List RawTask) :
    MainOutcome :=
  if numTasks ≤ 0 then .earlyExit
  else if mallocOk then .completed (runAllocator capacity raws)
  else .memFail

/-- The process exit status of each outcome: `0` for the early exit
(line 90) and the completed run (line 198), `1` for the memory failure
(line 98). -/
def exitStatus : MainOutcome → ℤ
  | .earlyExit => 0
  | .memFail => 1
  | .completed _ => 0

/-- The tasks that received an allocation in each outcome: none unless the
run completed. -/
def outcomeTasks : MainOutcome → List Task
  | .earlyExit => []
  | .memFail => []
  | .completed r => r.tasks

/-- The total priority value achieved in each outcome: the variable
`totalPriorityValue` is initialised to `0` (line 76) and only updated
inside the allocation loop, so a run that never reaches the loop reports
`0`. -/
def outcomeValue : MainOutcome → ℚ
  | .earlyExit => 0
  | .memFail => 0
  | .completed r => r.valueAchieved

/-- Modelled from the spec: the value of an arbitrary feasible fractional
allocation, against which the spec's optimality property compares the
greedy result.  An allocation pairs each task with an allocated amount; a
positive-demand task is credited the corresponding fraction of its
priority, and a zero-demand task is credited its full priority ("an entry
with demand == 0 ... credits its full priority"). -/
def specAllocValue (pl : List (Task × ℚ)) : ℚ :=
  (pl.map fun p =>
    if 0 < p.1.demand then p.2 / p.1.demand * (p.1.priority : ℚ) else (p.1.priority : ℚ)).sum

/-- The inner product of allocated amounts with the stored ratios; for
positive-demand tasks whose ratio is `priority / demand` this coincides
with the fractional credit of `specAllocValue`. -/
def dotRatio : List Task → List ℚ → ℚ
  | t :: ts, a :: rest => a * t.ratio + dotRatio ts rest
  | _, _ => 0

/-- The value achieved by the allocation loop alone. -/
def allocValue (r : ℚ) (l : List Task) : ℚ := (allocGo r l).2.2

theorem mkTask_demand (x : RawTask) : (mkTask x).demand = x.demand := rfl

theorem mkTask_priority (x : RawTask) : (mkTask x).priority = x.priority := rfl

theorem mkTask_allocated (x : RawTask) : (mkTask x).allocated = 0 := rfl

theorem mkTask_ratio (x : RawTask) :
    (mkTask x).ratio = computeRatio x.priority x.demand := rfl

theorem rank_perm (l : List Task) : (rank l).Perm l :=
  List.perm_insertionSort taskLe l

theorem rank_sorted (l : List Task) : List.Sorted taskLe (rank l) :=
  List.sorted_insertionSort taskLe l

theorem mem_ranked_tasks {raws : List RawTask} {t : Task}
    (ht : t ∈ rank (raws.map mkTask)) : ∃ x ∈ raws, t = mkTask x := by
  have h1 : t ∈ raws.map mkTask := (rank_perm _).mem_iff.mp ht
  obtain ⟨x, hx, hxt⟩ := List.mem_map.mp h1
  exact ⟨x, hx, hxt.symm⟩

theorem allocGo_break (r : ℚ) (l : List Task) (h : r ≤ 0) : allocGo r l = (l, r, 0) := by
  cases l with
  | nil => rfl
  | cons t ts => simp [allocGo, h]

theorem allocGo_cons_full (r : ℚ) (t : Task) (ts : List Task)
    (h : ¬r ≤ 0) (h2 : t.demand ≤ r) :
    allocGo r (t :: ts) =
      ({ t with allocated := t.demand } :: (allocGo (r - t.demand) ts).1,
        (allocGo (r - t.demand) ts).2.1,
        (t.priority : ℚ) + (allocGo (r - t.demand) ts).2.2) := by
  simp [allocGo, h, h2]

theorem allocGo_cons_frac (r : ℚ) (t : Task) (ts : List Task)
    (h : ¬r ≤ 0) (h2 : ¬t.demand ≤ r) :
    allocGo r (t :: ts) =
      ({ t with allocated := r } :: ts, 0, r / t.demand * (t.priority : ℚ)) := by
  simp [allocGo, h, h2]

theorem allocGo_map_taskFields (r : ℚ) (l : List Task) :
    ((allocGo r l).1).map taskFields = l.map taskFields := by
  induction l generalizing r with
  | nil => rfl
  | cons t ts ih =>
    by_cases h : r ≤ 0
    · rw [allocGo_break _ _ h]
    · by_cases h2 : t.demand ≤ r
      · simp [allocGo, h, h2, taskFields, ih (r - t.demand)]
      · simp [allocGo, h, h2, taskFields]

theorem allocGo_bounds (r : ℚ) (l : List Task)
    (h0 : ∀ t ∈ l, t.allocated = 0) (hd : ∀ t ∈ l, 0 ≤ t.demand) :
    ∀ u ∈ (allocGo r l).1, 0 ≤ u.allocated ∧ u.allocated ≤ u.demand := by
  induction l generalizing r with
  | nil => intro u hu; simp [allocGo] at hu
  | cons t ts ih =>
    intro u hu
    by_cases h : r ≤ 0
    · rw [allocGo_break _ _ h] at hu
      rw [h0 u hu]
      exact ⟨le_refl 0, hd u hu⟩
    · by_cases h2 : t.demand ≤ r
      · simp only [allocGo, if_neg h, if_pos h2, List.mem_cons] at hu
        rcases hu with rfl | hu
        · refine ⟨hd t (List.mem_cons_self t ts), le_refl _⟩
        · exact ih (r - t.demand) (fun v hv => h0 v (List.mem_cons_of_mem t hv))
            (fun v hv => hd v (List.mem_cons_of_mem t hv)) u hu
      · simp only [allocGo, if_neg h, if_neg h2, List.mem_cons] at hu
        rcases hu with rfl | hu
        · exact ⟨le_of_lt (lt_of_not_le h), le_of_lt (lt_of_not_le h2)⟩
        · rw [h0 u (List.mem_cons_of_mem t hu)]
          exact ⟨le_refl 0, hd u (List.mem_cons_of_mem t hu)⟩

theorem allocGo_zero_demand (r : ℚ) (l : List Task)
    (h0 : ∀ t ∈ l, t.allocated = 0) :
    ∀ u ∈ (allocGo r l).1, u.demand = 0 → u.allocated = 0 := by
  induction l generalizing r with
  | nil => intro u hu; simp [allocGo] at hu
  | cons t ts ih =>
    intro u hu hud
    by_cases h : r ≤ 0
    · rw [allocGo_break _ _ h] at hu
      exact h0 u hu
    · by_cases h2 : t.demand ≤ r
      · simp only [allocGo, if_neg h, if_pos h2, List.mem_cons] at hu
        rcases hu with rfl | hu
        · simpa using hud
        · exact ih (r - t.demand) (fun v hv => h0 v (List.mem_cons_of_mem t hv)) u hu hud
      · simp only [allocGo, if_neg h, if_neg h2, List.mem_cons] at hu
        rcases hu with rfl | hu
        · exact absurd hud (by simpa using ne_of_gt (lt_trans (lt_of_not_le h) (lt_of_not_le h2)))
        · exact h0 u (List.mem_cons_of_mem t hu)

theorem sumAllocated_eq_zero (l : List Task) (h0 : ∀ t ∈ l, t.allocated = 0) :
    sumAllocated l = 0 := by
  induction l with
  | nil => rfl
  | cons t ts ih =>
    have h1 := h0 t (List.mem_cons_self t ts)
    have h2 := ih (fun v hv => h0 v (List.mem_cons_of_mem t hv))
    simp [sumAllocated, List.map_cons, List.sum_cons, h1]
    simpa [sumAllocated] using h2

theorem allocGo_sum (r : ℚ) (l : List Task) (h0 : ∀ t ∈ l, t.allocated = 0) :
    sumAllocated (allocGo r l).1 + (allocGo r l).2.1 = r := by
  induction l generalizing r with
  | nil => simp [allocGo, sumAllocated]
  | cons t ts ih =>
    by_cases h : r ≤ 0
    · rw [allocGo_break _ _ h]
      rw [sumAllocated_eq_zero (t :: ts) h0]
      ring
    · by_cases h2 : t.demand ≤ r
      · have hih := ih (r - t.demand) (fun v hv => h0 v (List.mem_cons_of_mem t hv))
        simp only [allocGo, if_neg h, if_pos h2, sumAllocated, List.map_cons, List.sum_cons]
        simp only [sumAllocated] at hih
        linarith
      · have hz : sumAllocated ts = 0 :=
          sumAllocated_eq_zero ts (fun v hv => h0 v (List.mem_cons_of_mem t hv))
        simp only [allocGo, if_neg h, if_neg h2, sumAllocated, List.map_cons, List.sum_cons]
        simp only [sumAllocated] at hz
        linarith

theorem allocGo_remaining_nonneg (r : ℚ) (l : List Task)
    (hr : 0 ≤ r) (hd : ∀ t ∈ l, 0 ≤ t.demand) :
    0 ≤ (allocGo r l).2.1 := by
  induction l generalizing r with
  | nil => simpa [allocGo]
  | cons t ts ih =>
    by_cases h : r ≤ 0
    · rw [allocGo_break _ _ h]; exact hr
    · by_cases h2 : t.demand ≤ r
      · simp only [allocGo, if_neg h, if_pos h2]
        exact ih (r - t.demand) (by linarith) (fun v hv => hd v (List.mem_cons_of_mem t hv))
      · simp [allocGo, if_neg h, if_neg h2]

theorem sum_demand_nonneg (l : List Task) (hd : ∀ t ∈ l, 0 ≤ t.demand) :
    0 ≤ (l.map Task.demand).sum := by
  induction l with
  | nil => simp
  | cons t ts ih =>
    simp only [List.map_cons, List.sum_cons]
    have := hd t (List.mem_cons_self t ts)
    have := ih (fun v hv => hd v (List.mem_cons_of_mem t hv))
    linarith

theorem allocGo_remaining_eq_zero (r : ℚ) (l : List Task)
    (hr : 0 ≤ r) (hd : ∀ t ∈ l, 0 ≤ t.demand) :
    (allocGo r l).2.1 = 0 ↔ r ≤ (l.map Task.demand).sum := by
  induction l generalizing r with
  | nil =>
    simp only [allocGo, List.map_nil, List.sum_nil]
    exact ⟨fun h => le_of_eq h, fun h => le_antisymm h hr⟩
  | cons t ts ih =>
    by_cases h : r ≤ 0
    · have hr0 : r = 0 := le_antisymm h hr
      rw [allocGo_break _ _ h]
      simp only [hr0, List.map_cons, List.sum_cons]
      have h1 := hd t (List.mem_cons_self t ts)
      have h2 := sum_demand_nonneg ts (fun v hv => hd v (List.mem_cons_of_mem t hv))
      constructor
      · intro _; linarith
      · intro _; trivial
    · by_cases h2 : t.demand ≤ r
      · have hih := ih (r - t.demand) (by linarith)
          (fun v hv => hd v (List.mem_cons_of_mem t hv))
        simp only [allocGo, if_neg h, if_pos h2, List.map_cons, List.sum_cons]
        rw [hih]
        constructor <;> intro hx <;> linarith
      · simp only [allocGo, if_neg h, if_neg h2, List.map_cons, List.sum_cons]
        have h1 := sum_demand_nonneg ts (fun v hv => hd v (List.mem_cons_of_mem t hv))
        have h3 := lt_of_not_le h2
        constructor
        · intro _; linarith
        · intro _; trivial

theorem allocValue_nonneg (r : ℚ) (l : List Task)
    (hp : ∀ t ∈ l, 0 ≤ (t.priority : ℚ)) : 0 ≤ allocValue r l := by
  induction l generalizing r with
  | nil => simp [allocValue, allocGo]
  | cons t ts ih =>
    unfold allocValue
    by_cases h : r ≤ 0
    · rw [allocGo_break _ _ h]
    · by_cases h2 : t.demand ≤ r
      · rw [allocGo_cons_full _ _ _ h h2]
        have h5 := ih (r - t.demand) (fun v hv => hp v (List.mem_cons_of_mem t hv))
        have h6 := hp t (List.mem_cons_self t ts)
        unfold allocValue at h5
        dsimp only
        linarith
      · rw [allocGo_cons_frac _ _ _ h h2]
        have h3 : 0 < r := lt_of_not_le h
        have h4 : 0 < t.demand := lt_trans h3 (lt_of_not_le h2)
        have h6 := hp t (List.mem_cons_self t ts)
        dsimp only
        positivity

theorem poolTrace_shape (r : ℚ) (l : List Task) : ∃ tl, poolTrace r l = r :: tl := by
  cases l with
  | nil => exact ⟨[], rfl⟩
  | cons t ts =>
    by_cases h : r ≤ 0
    · exact ⟨[], by simp [poolTrace, h]⟩
    · by_cases h2 : t.demand ≤ r
      · exact ⟨poolTrace (r - t.demand) ts, by simp [poolTrace, h, h2]⟩
      · exact ⟨[0], by simp [poolTrace, h, h2]⟩

theorem poolTrace_chain (r : ℚ) (l : List Task) (hd : ∀ t ∈ l, 0 ≤ t.demand) :
    List.Chain' (fun a b => b ≤ a) (poolTrace r l) := by
  induction l generalizing r with
  | nil => simp [poolTrace]
  | cons t ts ih =>
    by_cases h : r ≤ 0
    · simp [poolTrace, h]
    · by_cases h2 : t.demand ≤ r
      · have hstep : poolTrace r (t :: ts) = r :: poolTrace (r - t.demand) ts := by
          simp [poolTrace, h, h2]
        obtain ⟨tl, htl⟩ := poolTrace_shape (r - t.demand) ts
        rw [hstep, htl, List.chain'_cons]
        have hd0 := hd t (List.mem_cons_self t ts)
        refine ⟨by linarith, ?_⟩
        rw [← htl]
        exact ih (r - t.demand) (fun v hv => hd v (List.mem_cons_of_mem t hv))
      · have hstep : poolTrace r (t :: ts) = [r, 0] := by simp [poolTrace, h, h2]
        rw [hstep, List.chain'_cons]
        exact ⟨le_of_lt (lt_of_not_le h), List.chain'_singleton 0⟩

theorem poolTrace_getLast (r : ℚ) (l : List Task) :
    (poolTrace r l).getLast? = some (allocGo r l).2.1 := by
  induction l generalizing r with
  | nil => rfl
  | cons t ts ih =>
    by_cases h : r ≤ 0
    · rw [allocGo_break _ _ h]
      simp [poolTrace, h]
    · by_cases h2 : t.demand ≤ r
      · have hstep : poolTrace r (t :: ts) = r :: poolTrace (r - t.demand) ts := by
          simp [poolTrace, h, h2]
        rw [allocGo_cons_full _ _ _ h h2, hstep]
        obtain ⟨tl, htl⟩ := poolTrace_shape (r - t.demand) ts
        rw [htl, List.getLast?_cons_cons, ← htl, ih (r - t.demand)]
      · have hstep : poolTrace r (t :: ts) = [r, 0] := by simp [poolTrace, h, h2]
        rw [allocGo_cons_frac _ _ _ h h2, hstep]
        rfl

/-- Claim C4: in every run with non-negative demands, priorities and
capacity, every task's final allocation satisfies
`0 ≤ allocated ≤ demand`. -/
theorem allocation_bounds (capacity : ℚ) (raws : List RawTask)
    (hC : 0 ≤ capacity)
    (hd : ∀ x ∈ raws, 0 ≤ x.demand)
    (hp : ∀ x ∈ raws, 0 ≤ x.priority) :
    ∀ t ∈ (runAllocator capacity raws).tasks,
      0 ≤ t.allocated ∧ t.allocated ≤ t.demand := by
  intro t ht
  refine allocGo_bounds capacity (rank (raws.map mkTask)) ?_ ?_ t ht
  · intro v hv
    obtain ⟨x, _, rfl⟩ := mem_ranked_tasks hv
    rfl
  · intro v hv
    obtain ⟨x, hx, rfl⟩ := mem_ranked_tasks hv
    exact hd x hx

/-- Witness for the claim C4 theorem at a concrete input. -/
theorem allocation_bounds_witness :
    ((runAllocator 10 [⟨"A", 4, 8⟩, ⟨"B", 9, 3⟩]).tasks).Forall
      (fun t => 0 ≤ t.allocated ∧ t.allocated ≤ t.demand) :=
  List.forall_iff_forall_mem.mpr
    (allocation_bounds 10 [⟨"A", 4, 8⟩, ⟨"B", 9, 3⟩] (by norm_num)
      (by intro x hx; fin_cases hx <;> norm_num)
      (by intro x hx; fin_cases hx <;> norm_num))

/-- Claim C7: when the entered task count is not positive the program ends
before any allocation with exit status `0`, no tasks are allocated and the
value achieved is `0`; a non-zero exit status occurs only when the memory
for the task storage cannot be obtained. -/
theorem invalid_count_early_exit (mallocOk : Bool) (capacity : ℚ) (numTasks : ℤ)
    (raws : List RawTask) :
    (numTasks ≤ 0 →
      mainModel mallocOk capacity numTasks raws = MainOutcome.earlyExit ∧
      exitStatus (mainModel mallocOk capacity numTasks raws) = 0 ∧
      outcomeTasks (mainModel mallocOk capacity numTasks raws) = [] ∧
      outcomeValue (mainModel mallocOk capacity numTasks raws) = 0) ∧
    (exitStatus (mainModel mallocOk capacity numTasks raws) ≠ 0 →
      mallocOk = false ∧ 0 < numTasks) := by
  constructor
  · intro h
    simp [mainModel, h, exitStatus, outcomeTasks, outcomeValue]
  · intro h
    by_cases h1 : numTasks ≤ 0
    · simp [mainModel, h1, exitStatus] at h
    · cases hm : mallocOk with
      | true => simp [mainModel, h1, hm, exitStatus] at h
      | false => exact ⟨rfl, lt_of_not_le h1⟩

/-- Witness for the claim C7 theorem at a concrete input. -/
theorem invalid_count_early_exit_witness :
    mainModel true 5 0 [] = MainOutcome.earlyExit ∧
    exitStatus (mainModel true 5 0 []) = 0 ∧
    outcomeTasks (mainModel true 5 0 []) = [] ∧
    outcomeValue (mainModel true 5 0 []) = 0 :=
  (invalid_count_early_exit true 5 0 []).1 (by norm_num)

/-- Claim C8: during the allocation pass over tasks with non-negative
demands the remaining pool is monotonically non-increasing at every step,
starting from the configured total capacity. -/
theorem pool_monotone (capacity : ℚ) (raws : List RawTask)
    (hd : ∀ x ∈ raws, 0 ≤ x.demand) :
    (poolTrace capacity (rank (raws.map mkTask))).head? = some capacity ∧
    List.Chain' (fun a b => b ≤ a) (poolTrace capacity (rank (raws.map mkTask))) := by
  obtain ⟨tl, htl⟩ := poolTrace_shape capacity (rank (raws.map mkTask))
  refine ⟨by rw [htl]; rfl, ?_⟩
  refine poolTrace_chain capacity _ ?_
  intro v hv
  obtain ⟨x, hx, rfl⟩ := mem_ranked_tasks hv
  exact hd x hx

/-- Witness for the claim C8 theorem at a concrete input. -/
theorem pool_monotone_witness :
    (poolTrace 5 (rank (([⟨"A", 2, 3⟩] : List RawTask).map mkTask))).head? = some 5 ∧
    List.Chain' (fun a b => b ≤ a)
      (poolTrace 5 (rank (([⟨"A", 2, 3⟩] : List RawTask).map mkTask))) :=
  pool_monotone 5 [⟨"A", 2, 3⟩] (by intro x hx; fin_cases hx <;> norm_num)

/-- Claim C9: the allocation pass writes only the `allocated` field: every
task's name, demand, priority and ratio after the pass equal their values
before it, and the earlier sort only reorders the tasks (a permutation,
leaving each task record unchanged). -/
theorem allocation_pass_frame (capacity : ℚ) (raws : List RawTask) :
    ((runAllocator capacity raws).tasks).map taskFields
      = (rank (raws.map mkTask)).map taskFields ∧
    (rank (raws.map mkTask)).Perm (raws.map mkTask) :=
  ⟨allocGo_map_taskFields capacity (rank (raws.map mkTask)), rank_perm (raws.map mkTask)⟩

/-- Claim C10: when the entered capacity is `≤ 0` (including negative
values) the allocation loop body never runs: the ranked tasks are returned
unchanged with every `allocated` still `0`, the value achieved is `0`, the
pool still equals the initial capacity, and the reported bandwidth used
(initial capacity minus remaining pool) is `0`. -/
theorem nonpositive_capacity_no_allocation (capacity : ℚ) (raws : List RawTask)
    (hC : capacity ≤ 0) :
    (runAllocator capacity raws).tasks = rank (raws.map mkTask) ∧
    (∀ t ∈ (runAllocator capacity raws).tasks, t.allocated = 0) ∧
    (runAllocator capacity raws).valueAchieved = 0 ∧
    (runAllocator capacity raws).remaining = capacity ∧
    capacity - (runAllocator capacity raws).remaining = 0 := by
  have h := allocGo_break capacity (rank (raws.map mkTask)) hC
  have h1 : (runAllocator capacity raws).tasks = rank (raws.map mkTask) := by
    simp [runAllocator, h]
  refine ⟨h1, ?_, ?_, ?_, ?_⟩
  · intro t ht
    rw [h1] at ht
    obtain ⟨x, _, rfl⟩ := mem_ranked_tasks ht
    rfl
  · simp [runAllocator, h]
  · simp [runAllocator, h]
  · simp [runAllocator, h]

/-- Witness for the claim C10 theorem at a concrete input. -/
theorem nonpositive_capacity_no_allocation_witness :
    (runAllocator (-1) [⟨"A", 2, 3⟩]).tasks = rank (([⟨"A", 2, 3⟩] : List RawTask).map mkTask) ∧
    ((runAllocator (-1) [⟨"A", 2, 3⟩]).tasks).Forall (fun t => t.allocated = 0) ∧
    (runAllocator (-1) [⟨"A", 2, 3⟩]).valueAchieved = 0 ∧
    (runAllocator (-1) [⟨"A", 2, 3⟩]).remaining = -1 ∧
    (-1 : ℚ) - (runAllocator (-1) [⟨"A", 2, 3⟩]).remaining = 0 := by
  have h := nonpositive_capacity_no_allocation (-1) [⟨"A", 2, 3⟩] (by norm_num)
  exact ⟨h.1, List.forall_iff_forall_mem.mpr h.2.1, h.2.2.1, h.2.2.2.1, h.2.2.2.2⟩

/-- Claim C3: in every run with non-negative demands, priorities and
capacity, the total allocation never exceeds the capacity, and it equals
the capacity exactly when the total demand is at least the capacity. -/
theorem conservation (capacity : ℚ) (raws : List RawTask)
    (hC : 0 ≤ capacity)
    (hd : ∀ x ∈ raws, 0 ≤ x.demand)
    (hp : ∀ x ∈ raws, 0 ≤ x.priority) :
    sumAllocated (runAllocator capacity raws).tasks ≤ capacity ∧
    (sumAllocated (runAllocator capacity raws).tasks = capacity ↔
      capacity ≤ sumDemand raws) := by
  set l := rank (raws.map mkTask) with hl
  have h0 : ∀ t ∈ l, t.allocated = 0 := by
    intro v hv
    obtain ⟨x, _, rfl⟩ := mem_ranked_tasks hv
    rfl
  have hdl : ∀ t ∈ l, 0 ≤ t.demand := by
    intro v hv
    obtain ⟨x, hx, rfl⟩ := mem_ranked_tasks hv
    exact hd x hx
  have hsum := allocGo_sum capacity l h0
  have hrem := allocGo_remaining_nonneg capacity l hC hdl
  have hiff := allocGo_remaining_eq_zero capacity l hC hdl
  have hdemand : (l.map Task.demand).sum = sumDemand raws := by
    have hperm : (l.map Task.demand).Perm ((raws.map mkTask).map Task.demand) :=
      (rank_perm (raws.map mkTask)).map Task.demand
    rw [hperm.sum_eq, sumDemand, List.map_map]
    rfl
  have htasks : (runAllocator capacity raws).tasks = (allocGo capacity l).1 := rfl
  have hremk : (runAllocator capacity raws).remaining = (allocGo capacity l).2.1 := rfl
  rw [htasks]
  constructor
  · linarith
  · rw [← hdemand, ← hiff]
    constructor
    · intro h
      linarith
    · intro h
      linarith

/-- Witness for the claim C3 theorem at a concrete input. -/
theorem conservation_witness :
    sumAllocated (runAllocator 10 [⟨"A", 4, 8⟩, ⟨"B", 9, 3⟩]).tasks ≤ 10 ∧
    (sumAllocated (runAllocator 10 [⟨"A", 4, 8⟩, ⟨"B", 9, 3⟩]).tasks = 10 ↔
      (10 : ℚ) ≤ sumDemand [⟨"A", 4, 8⟩, ⟨"B", 9, 3⟩]) :=
  conservation 10 [⟨"A", 4, 8⟩, ⟨"B", 9, 3⟩] (by norm_num)
    (by intro x hx; fin_cases hx <;> norm_num)
    (by intro x hx; fin_cases hx <;> norm_num)

theorem filter_orderedInsert_ratio (q : ℚ) (a : Task) (l : List Task) :
    (List.orderedInsert taskLe a l).filter (fun t => decide (t.ratio = q)) =
      if a.ratio = q then a :: l.filter (fun t => decide (t.ratio = q))
      else l.filter (fun t => decide (t.ratio = q)) := by
  induction l with
  | nil =>
    by_cases haq : a.ratio = q <;> simp [List.orderedInsert, List.filter_cons, haq]
  | cons b bs ih =>
    show (if taskLe a b then a :: b :: bs else b :: List.orderedInsert taskLe a bs).filter _ = _
    by_cases hle : taskLe a b
    · rw [if_pos hle]
      by_cases haq : a.ratio = q <;> simp [List.filter_cons, haq]
    · rw [if_neg hle]
      have hba : a.ratio < b.ratio := by
        have := (taskLe_iff a b).not.mp hle
        exact lt_of_not_le this
      by_cases haq : a.ratio = q
      · have hbq : ¬b.ratio = q := by
          intro hb
          rw [← haq] at hb
          exact absurd hb (ne_of_gt hba)
        rw [if_pos haq]
        simp only [List.filter_cons, decide_eq_true_eq]
        rw [if_neg (by simpa using hbq), if_neg (by simpa using hbq), ih, if_pos haq]
      · rw [if_neg haq]
        simp only [List.filter_cons, decide_eq_true_eq]
        by_cases hbq : b.ratio = q
        · rw [if_pos (by simpa using hbq), if_pos (by simpa using hbq), ih, if_neg haq]
        · rw [if_neg (by simpa using hbq), if_neg (by simpa using hbq), ih, if_neg haq]

theorem filter_rank_ratio (q : ℚ) (l : List Task) :
    (rank l).filter (fun t => decide (t.ratio = q)) =
      l.filter (fun t => decide (t.ratio = q)) := by
  induction l with
  | nil => rfl
  | cons a l ih =>
    show (List.orderedInsert taskLe a (List.insertionSort taskLe l)).filter _ = _
    rw [filter_orderedInsert_ratio]
    by_cases haq : a.ratio = q
    · rw [if_pos haq]
      show a :: (rank l).filter _ = _
      rw [ih]
      simp [List.filter_cons, haq]
    · rw [if_neg haq]
      show (rank l).filter _ = _
      rw [ih]
      simp [List.filter_cons, haq]

/-- Claim C5: `rank` produces a permutation of its input (no task added or
removed), ordered descending by ratio, and tasks with equal ratios keep
their original relative order: for every ratio value the sublist of tasks
with that ratio is unchanged by ranking. -/
theorem rank_permutation_sorted_stable (l : List Task) :
    (rank l).Perm l ∧
    (rank l).Pairwise (fun a b => b.ratio ≤ a.ratio) ∧
    (∀ q : ℚ, (rank l).filter (fun t => decide (t.ratio = q)) =
      l.filter (fun t => decide (t.ratio = q))) := by
  refine ⟨rank_perm l, ?_, fun q => filter_rank_ratio q l⟩
  exact List.Pairwise.imp (fun hab => (taskLe_iff _ _).mp hab) (rank_sorted l)

/-- Claim C6: ranking is idempotent: re-ranking an already-ranked task
list leaves it unchanged. -/
theorem rank_idempotent (l : List Task) : rank (rank l) = rank l :=
  (rank_sorted l).insertionSort_eq

/-- The total priority carried by zero-demand positive-priority tasks of a
list; by the spec such tasks are the ones credited in full while consuming
nothing. -/
def zeroDemandValue (l : List Task) : ℚ :=
  (l.map fun t => if t.demand = 0 ∧ 0 < t.priority then (t.priority : ℚ) else 0).sum

theorem sum_eq_zero_of_mem (l : List ℚ) (h : ∀ x ∈ l, x = 0) : l.sum = 0 := by
  induction l with
  | nil => rfl
  | cons a l ih =>
    rw [List.sum_cons, h a (List.mem_cons_self a l),
      ih (fun x hx => h x (List.mem_cons_of_mem a hx)), add_zero]

theorem computeRatio_zero_pos (p : ℤ) (hp : 0 < p) :
    computeRatio p 0 = 1000000000 := by
  simp [computeRatio, hp]

theorem zeroDemandValue_le_allocValue (l : List Task) (B : ℚ)
    (hs : List.Sorted taskLe l)
    (hd : ∀ t ∈ l, 0 ≤ t.demand)
    (hp : ∀ t ∈ l, 0 ≤ t.priority)
    (hratio : ∀ t ∈ l, t.ratio = computeRatio t.priority t.demand)
    (hsent : ∀ t ∈ l, 0 < t.demand → (t.priority : ℚ) < 1000000000 * t.demand)
    (hB : 0 < B) :
    zeroDemandValue l ≤ allocValue B l := by
  induction l with
  | nil => simp [zeroDemandValue, allocValue, allocGo]
  | cons t ts ih =>
    have hnB : ¬B ≤ 0 := not_le_of_lt hB
    rw [List.sorted_cons] at hs
    have htail := fun (P : Task → Prop) (h : ∀ u ∈ t :: ts, P u) =>
      fun u (hu : u ∈ ts) => h u (List.mem_cons_of_mem t hu)
    by_cases ht1 : t.demand = 0 ∧ 0 < t.priority
    · have hfull : t.demand ≤ B := by rw [ht1.1]; exact le_of_lt hB
      have hval : allocValue B (t :: ts) = (t.priority : ℚ) + allocValue B ts := by
        unfold allocValue
        rw [allocGo_cons_full _ _ _ hnB hfull, ht1.1, sub_zero]
      rw [hval]
      have hzd : zeroDemandValue (t :: ts) =
          (t.priority : ℚ) + zeroDemandValue ts := by
        unfold zeroDemandValue
        rw [List.map_cons, List.sum_cons, if_pos ht1]
      rw [hzd]
      have := ih hs.2 (htail _ hd) (htail _ hp) (htail _ hratio) (htail _ hsent)
      linarith
    · have hle : t.ratio < 1000000000 := by
        rcases lt_or_eq_of_le (hd t (List.mem_cons_self t ts)) with hpos | hzero
        · have h1 := hsent t (List.mem_cons_self t ts) hpos
          have h2 := hratio t (List.mem_cons_self t ts)
          rw [h2, computeRatio, if_pos hpos]
          rw [div_lt_iff hpos]
          linarith
        · have hpz : ¬0 < t.priority := by
            intro hc
            exact ht1 ⟨hzero.symm, hc⟩
          have h2 := hratio t (List.mem_cons_self t ts)
          rw [h2, ← hzero, computeRatio]
          norm_num [hpz]
      have hts0 : zeroDemandValue ts = 0 := by
        apply sum_eq_zero_of_mem
        intro x hx
        obtain ⟨u, hu, rfl⟩ := List.mem_map.mp hx
        by_cases hu1 : u.demand = 0 ∧ 0 < u.priority
        · exfalso
          have hur : u.ratio = 1000000000 := by
            rw [hratio u (List.mem_cons_of_mem t hu), hu1.1]
            exact computeRatio_zero_pos u.priority hu1.2
          have := (taskLe_iff t u).mp (hs.1 u hu)
          rw [hur] at this
          exact absurd (lt_of_lt_of_le hle this) (lt_irrefl _)
        · rw [if_neg hu1]
      have hzd : zeroDemandValue (t :: ts) = zeroDemandValue ts := by
        unfold zeroDemandValue
        rw [List.map_cons, List.sum_cons, if_neg ht1, zero_add]
      rw [hzd, hts0]
      apply allocValue_nonneg
      intro u hu
      exact Int.cast_nonneg.mpr (hp u hu)

/-- Counterexample to the claim C2 as stated: with capacity `0` the
allocation loop breaks before reaching any task, so the zero-demand
priority-5 task "X" credits nothing (the claim says it always credits its
full priority, even at capacity `0`); moreover the task "Y" has a finite
computed ratio `2000000000 / 1`, which exceeds the `1e9` sentinel, so "X"
is not ranked before every finite-ratio task. -/
theorem zero_demand_priority_counterexample :
    (runAllocator 0 [⟨"Y", 1, 2000000000⟩, ⟨"X", 0, 5⟩]).valueAchieved = 0 ∧
    ¬((5 : ℚ) ≤ (runAllocator 0 [⟨"Y", 1, 2000000000⟩, ⟨"X", 0, 5⟩]).valueAchieved) ∧
    ((runAllocator 0 [⟨"Y", 1, 2000000000⟩, ⟨"X", 0, 5⟩]).tasks.map Task.name)
      = ["Y", "X"] ∧
    0 < (mkTask ⟨"Y", 1, 2000000000⟩).demand := by
  refine ⟨?_, ?_, ?_, ?_⟩ <;>
    norm_num [runAllocator, rank, List.insertionSort, List.orderedInsert, allocGo,
      mkTask, computeRatio, taskLe, compareTasks, Task.name]

/-- Claim C2, amended: a zero-demand positive-priority task always — for
every entry list containing it and every capacity, including capacity `0`
— ends with `allocated = 0` and is ranked before every task whose stored
ratio is below the `1e9` sentinel; and provided demands and priorities are
non-negative, every positive-demand task has `priority < 1e9 * demand`
(so no finite ratio reaches the sentinel), and the capacity is positive,
the task's full priority is credited to the value achieved. -/
theorem zero_demand_priority_amended (capacity : ℚ) (raws : List RawTask) (e : RawTask)
    (he : e ∈ raws) (hed : e.demand = 0) (hep : 0 < e.priority) :
    (∀ t ∈ (runAllocator capacity raws).tasks, t.demand = 0 → t.allocated = 0) ∧
    (runAllocator capacity raws).tasks.Pairwise
      (fun a b => b.demand = 0 → 0 < b.priority → (1000000000 : ℚ) ≤ a.ratio) ∧
    ((∀ x ∈ raws, 0 ≤ x.demand) → (∀ x ∈ raws, 0 ≤ x.priority) →
      (∀ x ∈ raws, 0 < x.demand → (x.priority : ℚ) < 1000000000 * x.demand) →
      0 < capacity →
      (e.priority : ℚ) ≤ (runAllocator capacity raws).valueAchieved) := by
  set l := rank (raws.map mkTask) with hl
  have h0 : ∀ t ∈ l, t.allocated = 0 := by
    intro v hv
    obtain ⟨x, _, rfl⟩ := mem_ranked_tasks hv
    rfl
  have hratio : ∀ t ∈ l, t.ratio = computeRatio t.priority t.demand := by
    intro v hv
    obtain ⟨x, _, rfl⟩ := mem_ranked_tasks hv
    rfl
  refine ⟨?_, ?_, ?_⟩
  · exact allocGo_zero_demand capacity l h0
  · have hP : l.Pairwise
        (fun a b => b.demand = 0 → 0 < b.priority → (1000000000 : ℚ) ≤ a.ratio) := by
      refine List.Pairwise.imp_of_mem ?_ (rank_sorted (raws.map mkTask))
      intro a b _ hb hab hbd hbp
      have hbr : b.ratio = 1000000000 := by
        rw [hratio b hb, hbd]
        exact computeRatio_zero_pos b.priority hbp
      have := (taskLe_iff a b).mp hab
      rw [hbr] at this
      exact this
    have hQ : (l.map taskFields).Pairwise
        (fun u v => v.2.1 = 0 → 0 < v.2.2.1 → (1000000000 : ℚ) ≤ u.2.2.2) := by
      rw [List.pairwise_map]
      exact hP
    rw [← allocGo_map_taskFields capacity l] at hQ
    rw [List.pairwise_map] at hQ
    exact hQ
  · intro hd hp hsent hC
    have hdl : ∀ t ∈ l, 0 ≤ t.demand := by
      intro v hv
      obtain ⟨x, hx, rfl⟩ := mem_ranked_tasks hv
      exact hd x hx
    have hpl : ∀ t ∈ l, 0 ≤ t.priority := by
      intro v hv
      obtain ⟨x, hx, rfl⟩ := mem_ranked_tasks hv
      exact hp x hx
    have hsentl : ∀ t ∈ l, 0 < t.demand → (t.priority : ℚ) < 1000000000 * t.demand := by
      intro v hv
      obtain ⟨x, hx, rfl⟩ := mem_ranked_tasks hv
      exact hsent x hx
    have h1 : zeroDemandValue l ≤ allocValue capacity l :=
      zeroDemandValue_le_allocValue l capacity (rank_sorted _) hdl hpl hratio hsentl hC
    have h2 : zeroDemandValue l = zeroDemandValue (raws.map mkTask) := by
      unfold zeroDemandValue
      exact ((rank_perm (raws.map mkTask)).map _).sum_eq
    have h3 : zeroDemandValue (raws.map mkTask) =
        (raws.map fun x => if x.demand = 0 ∧ 0 < x.priority then (x.priority : ℚ) else 0).sum := by
      unfold zeroDemandValue
      rw [List.map_map]
      rfl
    have h4 : (e.priority : ℚ) ≤
        (raws.map fun x => if x.demand = 0 ∧ 0 < x.priority then (x.priority : ℚ) else 0).sum := by
      have hmem : (if e.demand = 0 ∧ 0 < e.priority then (e.priority : ℚ) else 0) ∈
          raws.map fun x => if x.demand = 0 ∧ 0 < x.priority then (x.priority : ℚ) else 0 :=
        List.mem_map_of_mem _ he
      have hnn : ∀ y ∈ raws.map
          (fun x => if x.demand = 0 ∧ 0 < x.priority then (x.priority : ℚ) else 0), 0 ≤ y := by
        intro y hy
        obtain ⟨x, hx, rfl⟩ := List.mem_map.mp hy
        by_cases hx1 : x.demand = 0 ∧ 0 < x.priority
        · rw [if_pos hx1]
          exact Int.cast_nonneg.mpr (hp x hx)
        · rw [if_neg hx1]
      have := List.single_le_sum hnn _ hmem
      rwa [if_pos ⟨hed, hep⟩] at this
    have hv : (runAllocator capacity raws).valueAchieved = allocValue capacity l := rfl
    rw [hv]
    calc (e.priority : ℚ) ≤ _ := h4
    _ = zeroDemandValue l := by rw [h2, h3]
    _ ≤ allocValue capacity l := h1

/-- Witness for the amended claim C2 theorem at a concrete input. -/
theorem zero_demand_priority_amended_witness :
    ((runAllocator 10 [⟨"X", 0, 5⟩, ⟨"A", 2, 3⟩]).tasks).Forall
      (fun t => t.demand = 0 → t.allocated = 0) ∧
    (runAllocator 10 [⟨"X", 0, 5⟩, ⟨"A", 2, 3⟩]).tasks.Pairwise
      (fun a b => b.demand = 0 → 0 < b.priority → (1000000000 : ℚ) ≤ a.ratio) ∧
    ((5 : ℤ) : ℚ) ≤ (runAllocator 10 [⟨"X", 0, 5⟩, ⟨"A", 2, 3⟩]).valueAchieved := by
  have h := zero_demand_priority_amended 10 [⟨"X", 0, 5⟩, ⟨"A", 2, 3⟩] ⟨"X", 0, 5⟩
    (List.mem_cons_self _ _) rfl (by norm_num)
  refine ⟨List.forall_iff_forall_mem.mpr h.1, h.2.1, h.2.2 ?_ ?_ ?_ (by norm_num)⟩
  · intro x hx; fin_cases hx <;> norm_num
  · intro x hx; fin_cases hx <;> norm_num
  · intro x hx; fin_cases hx <;> norm_num

theorem perm_lift_pairs {l l' : List Task} (h : l.Perm l') :
    ∀ pl : List (Task × ℚ), pl.map Prod.fst = l →
      ∃ pl' : List (Task × ℚ), pl'.map Prod.fst = l' ∧ pl.Perm pl' := by
  induction h with
  | nil =>
    intro pl hpl
    have hnil : pl = [] := List.map_eq_nil.mp hpl
    exact ⟨[], rfl, by rw [hnil]⟩
  | @cons t l₁ l₂ _ ih =>
    intro pl hpl
    cases pl with
    | nil => simp at hpl
    | cons p pt =>
      simp only [List.map_cons, List.cons.injEq] at hpl
      obtain ⟨pl', hpl', hperm⟩ := ih pt hpl.2
      exact ⟨p :: pl', by simp [hpl', hpl.1], hperm.cons p⟩
  | @swap a b l₁ =>
    intro pl hpl
    cases pl with
    | nil => simp at hpl
    | cons p pt =>
      cases pt with
      | nil => simp at hpl
      | cons q qt =>
        simp only [List.map_cons, List.cons.injEq] at hpl
        exact ⟨q :: p :: qt, by simp [hpl.1, hpl.2.1, hpl.2.2], List.Perm.swap q p qt⟩
  | @trans l₁ l₂ l₃ _ _ ih1 ih2 =>
    intro pl hpl
    obtain ⟨pl₂, h2, hp2⟩ := ih1 pl hpl
    obtain ⟨pl₃, h3, hp3⟩ := ih2 pl₂ h2
    exact ⟨pl₃, h3, hp2.trans hp3⟩

theorem pairs_caps_forall₂ (pl : List (Task × ℚ))
    (h : ∀ p ∈ pl, 0 ≤ p.2 ∧ p.2 ≤ p.1.demand) :
    List.Forall₂ (fun t a => 0 ≤ a ∧ a ≤ t.demand) (pl.map Prod.fst) (pl.map Prod.snd) := by
  induction pl with
  | nil => exact List.Forall₂.nil
  | cons p pt ih =>
    simp only [List.map_cons]
    exact List.Forall₂.cons (h p (List.mem_cons_self p pt))
      (ih (fun q hq => h q (List.mem_cons_of_mem p hq)))

theorem caps_sum_nonneg {l : List Task} {x : List ℚ}
    (h : List.Forall₂ (fun t a => 0 ≤ a ∧ a ≤ t.demand) l x) : 0 ≤ x.sum := by
  induction h with
  | nil => simp
  | @cons t a ts xs h1 _ ih =>
    rw [List.sum_cons]
    linarith [h1.1]

theorem specAllocValue_eq_dotRatio (pl : List (Task × ℚ))
    (hd : ∀ p ∈ pl, 0 < p.1.demand)
    (hr : ∀ p ∈ pl, p.1.ratio * p.1.demand = (p.1.priority : ℚ)) :
    specAllocValue pl = dotRatio (pl.map Prod.fst) (pl.map Prod.snd) := by
  induction pl with
  | nil => rfl
  | cons p pt ih =>
    have hdp := hd p (List.mem_cons_self p pt)
    have hrp := hr p (List.mem_cons_self p pt)
    have hIH := ih (fun q hq => hd q (List.mem_cons_of_mem p hq))
      (fun q hq => hr q (List.mem_cons_of_mem p hq))
    show (List.map _ (p :: pt)).sum = p.2 * p.1.ratio + dotRatio (pt.map Prod.fst) (pt.map Prod.snd)
    rw [List.map_cons, List.sum_cons]
    have h1 : (if 0 < p.1.demand then p.2 / p.1.demand * (p.1.priority : ℚ)
        else (p.1.priority : ℚ)) = p.2 * p.1.ratio := by
      rw [if_pos hdp, ← hrp]
      field_simp
      ring
    rw [h1]
    unfold specAllocValue at hIH
    rw [hIH]

/-- The largest stored ratio of a task list (at least `0`); any such upper
bound works as the `rmax` slack rate in `dotRatio_le_allocValue`. -/
def ratioBound (l : List Task) : ℚ := (l.map Task.ratio).foldr max 0

theorem ratioBound_nonneg (l : List Task) : 0 ≤ ratioBound l := by
  induction l with
  | nil => exact le_refl 0
  | cons t ts ih =>
    show 0 ≤ max t.ratio (ratioBound ts)
    exact le_trans ih (le_max_right _ _)

theorem le_ratioBound (l : List Task) : ∀ t ∈ l, t.ratio ≤ ratioBound l := by
  induction l with
  | nil => intro t ht; simp at ht
  | cons u ts ih =>
    intro t ht
    rcases List.mem_cons.mp ht with rfl | ht2
    · exact le_max_left _ _
    · exact le_trans (ih t ht2) (le_max_right _ _)

theorem dotRatio_le_sum_mul (bound : ℚ) {l : List Task} {x : List ℚ}
    (h : List.Forall₂ (fun t a => 0 ≤ a ∧ a ≤ t.demand) l x) :
    (∀ t ∈ l, t.ratio ≤ bound) → dotRatio l x ≤ x.sum * bound := by
  induction h with
  | nil => intro _; simp [dotRatio]
  | @cons t a ts xs h1 h2 ih =>
    intro hb
    have e1 : a * t.ratio ≤ a * bound :=
      mul_le_mul_of_nonneg_left (hb t (List.mem_cons_self t ts)) h1.1
    have e2 := ih (fun u hu => hb u (List.mem_cons_of_mem t hu))
    show a * t.ratio + dotRatio ts xs ≤ (a :: xs).sum * bound
    rw [List.sum_cons, add_mul]
    linarith

/-- The key greedy inequality: on a ranked list of positive-demand tasks,
any allocation respecting the per-task caps is worth (at the stored
ratios) at most the loop's achieved value on budget `B`, plus a slack term
paying for any excess of the allocation's total over `B` at rate `rmax`,
an upper bound of all ratios. -/
theorem dotRatio_le_allocValue {l : List Task} {x : List ℚ}
    (hcaps : List.Forall₂ (fun t a => 0 ≤ a ∧ a ≤ t.demand) l x) :
    ∀ (B rmax : ℚ), 0 ≤ B → 0 ≤ rmax →
      List.Sorted taskLe l →
      (∀ t ∈ l, 0 < t.demand) →
      (∀ t ∈ l, t.ratio * t.demand = (t.priority : ℚ)) →
      (∀ t ∈ l, 0 ≤ (t.priority : ℚ)) →
      (∀ t ∈ l, t.ratio ≤ rmax) →
      dotRatio l x ≤ allocValue B l + max (x.sum - B) 0 * rmax := by
  induction hcaps with
  | nil =>
    intro B rmax hB hrm _ _ _ _ _
    have h1 : 0 ≤ max ((List.sum []) - B) 0 * rmax :=
      mul_nonneg (le_max_right _ _) hrm
    simpa [dotRatio, allocValue, allocGo] using h1
  | @cons t a ts xs h1 h2 ih =>
    intro B rmax hB hrm hs hd hr hpr hbound
    rw [List.sorted_cons] at hs
    have hmemt := List.mem_cons_self t ts
    have hdt : 0 < t.demand := hd t hmemt
    have hrt : t.ratio * t.demand = (t.priority : ℚ) := hr t hmemt
    have hpt : 0 ≤ (t.priority : ℚ) := hpr t hmemt
    have hratio_div : t.ratio = (t.priority : ℚ) / t.demand :=
      (eq_div_iff (ne_of_gt hdt)).mpr hrt
    have hrt0 : 0 ≤ t.ratio := by
      rw [hratio_div]
      exact div_nonneg hpt (le_of_lt hdt)
    have hbts : ∀ u ∈ ts, u.ratio ≤ t.ratio := fun u hu => (taskLe_iff t u).mp (hs.1 u hu)
    have hrmt : t.ratio ≤ rmax := hbound t hmemt
    have hdot : dotRatio (t :: ts) (a :: xs) = a * t.ratio + dotRatio ts xs := rfl
    have hsumc : (a :: xs).sum = a + xs.sum := List.sum_cons
    rcases eq_or_lt_of_le hB with hB0 | hBpos
    · have hbreak : allocValue B (t :: ts) = 0 := by
        unfold allocValue
        rw [allocGo_break _ _ (le_of_eq hB0.symm)]

      have hxs0 : 0 ≤ xs.sum := caps_sum_nonneg h2
      have ha0 : 0 ≤ a := h1.1
      have hmax : max ((a :: xs).sum - B) 0 = a + xs.sum := by
        rw [hsumc, ← hB0, sub_zero]
        exact max_eq_left (by linarith)
      rw [hdot, hbreak, hmax, zero_add]
      have hle1 : dotRatio ts xs ≤ xs.sum * t.ratio := dotRatio_le_sum_mul t.ratio h2 hbts
      have e1 : a * t.ratio ≤ a * rmax := mul_le_mul_of_nonneg_left hrmt ha0
      have e2 : xs.sum * t.ratio ≤ xs.sum * rmax := mul_le_mul_of_nonneg_left hrmt hxs0
      rw [add_mul]
      linarith
    · have hnB : ¬B ≤ 0 := not_le_of_lt hBpos
      by_cases hfull : t.demand ≤ B
      · have hval : allocValue B (t :: ts)
            = (t.priority : ℚ) + allocValue (B - t.demand) ts := by
          unfold allocValue
          rw [allocGo_cons_full _ _ _ hnB hfull]
        have hih := ih (B - t.demand) t.ratio (by linarith) hrt0 hs.2
          (fun u hu => hd u (List.mem_cons_of_mem t hu))
          (fun u hu => hr u (List.mem_cons_of_mem t hu))
          (fun u hu => hpr u (List.mem_cons_of_mem t hu)) hbts
        set M1 := max (xs.sum - (B - t.demand)) 0 with hM1
        set M2 := max ((a :: xs).sum - B) 0 with hM2
        have hM20 : 0 ≤ M2 := by rw [hM2]; exact le_max_right _ _
        have hkey : a + M1 ≤ t.demand + M2 := by
          rw [hM1, hM2, hsumc]
          rcases le_total (xs.sum - (B - t.demand)) 0 with hc | hc
          · rw [max_eq_right hc]
            have h3 := le_max_right (a + xs.sum - B) (0 : ℚ)
            linarith [h1.2]
          · rw [max_eq_left hc]
            have h3 := le_max_left (a + xs.sum - B) (0 : ℚ)
            linarith
        have hmul : (a + M1) * t.ratio ≤ (t.demand + M2) * t.ratio :=
          mul_le_mul_of_nonneg_right hkey hrt0
        rw [add_mul, add_mul] at hmul
        have hM2rm : M2 * t.ratio ≤ M2 * rmax :=
          mul_le_mul_of_nonneg_left hrmt hM20
        have hdp2 : t.demand * t.ratio = (t.priority : ℚ) := by
          rw [mul_comm]
          exact hrt
        rw [hdot, hval]
        linarith
      · have hval : allocValue B (t :: ts) = B / t.demand * (t.priority : ℚ) := by
          unfold allocValue
          rw [allocGo_cons_frac _ _ _ hnB hfull]
        have hBr : B / t.demand * (t.priority : ℚ) = B * t.ratio := by
          rw [hratio_div, div_mul_eq_mul_div, mul_div_assoc]
        have hle1 : dotRatio ts xs ≤ xs.sum * t.ratio := dotRatio_le_sum_mul t.ratio h2 hbts
        rw [hdot, hval, hBr, hsumc]
        rcases le_total (a + xs.sum) B with hc | hc
        · have hge : 0 ≤ max (a + xs.sum - B) 0 * rmax :=
            mul_nonneg (le_max_right _ _) hrm
          have h4 : (a + xs.sum) * t.ratio ≤ B * t.ratio :=
            mul_le_mul_of_nonneg_right hc hrt0
          rw [add_mul] at h4
          linarith
        · have hmax : max (a + xs.sum - B) 0 = a + xs.sum - B :=
            max_eq_left (by linarith)
          rw [hmax]
          have h3 : (a + xs.sum - B) * t.ratio ≤ (a + xs.sum - B) * rmax :=
            mul_le_mul_of_nonneg_left hrmt (by linarith)
          have hid : a * t.ratio + xs.sum * t.ratio
              = B * t.ratio + (a + xs.sum - B) * t.ratio := by ring
          linarith

/-- Counterexample to the claim C1 as stated: for the single entry
"A" with demand `0` and priority `5` (non-negative demand and priority)
and capacity `0`, the all-zero allocation is feasible (caps and capacity
respected) and is worth the full priority `5` under the spec's crediting
rule, yet the program achieves value `0`, because the loop breaks before
reaching the task. -/
theorem optimality_counterexample :
    (([(mkTask ⟨"A", 0, 5⟩, (0 : ℚ))]).map Prod.fst
        = ([⟨"A", 0, 5⟩] : List RawTask).map mkTask) ∧
    (∀ p ∈ [(mkTask ⟨"A", 0, 5⟩, (0 : ℚ))], 0 ≤ p.2 ∧ p.2 ≤ p.1.demand) ∧
    (([(mkTask ⟨"A", 0, 5⟩, (0 : ℚ))]).map Prod.snd).sum ≤ 0 ∧
    ¬(specAllocValue [(mkTask ⟨"A", 0, 5⟩, (0 : ℚ))]
        ≤ (runAllocator 0 [⟨"A", 0, 5⟩]).valueAchieved) := by
  refine ⟨rfl, ?_, by norm_num, ?_⟩
  · intro p hp
    rcases List.mem_singleton.mp hp with rfl
    norm_num [mkTask]
  · norm_num [specAllocValue, runAllocator, rank, List.insertionSort, List.orderedInsert,
      allocGo, mkTask, computeRatio]

/-- Claim C1, amended: for every list of entries with positive demands and
non-negative priorities and every capacity `≥ 0`, the greedy ranked
allocation achieves a total value at least the value of every feasible
fractional allocation respecting the per-entry demand caps and the total
capacity.  (As stated the claim also covered zero-demand entries, for
which it fails: see the counterexample.) -/
theorem greedy_allocation_optimal (capacity : ℚ) (raws : List RawTask)
    (hC : 0 ≤ capacity)
    (hd : ∀ x ∈ raws, 0 < x.demand)
    (hp : ∀ x ∈ raws, 0 ≤ x.priority)
    (pl : List (Task × ℚ))
    (hmatch : pl.map Prod.fst = raws.map mkTask)
    (hcaps : ∀ p ∈ pl, 0 ≤ p.2 ∧ p.2 ≤ p.1.demand)
    (htot : (pl.map Prod.snd).sum ≤ capacity) :
    specAllocValue pl ≤ (runAllocator capacity raws).valueAchieved := by
  set l := rank (raws.map mkTask) with hldef
  have hperm : (raws.map mkTask).Perm l := (rank_perm (raws.map mkTask)).symm
  obtain ⟨pl', hfst', hpp⟩ := perm_lift_pairs hperm pl hmatch
  have hdl : ∀ t ∈ l, 0 < t.demand := by
    intro t ht
    obtain ⟨x, hx, rfl⟩ := mem_ranked_tasks ht
    exact hd x hx
  have hrl : ∀ t ∈ l, t.ratio * t.demand = (t.priority : ℚ) := by
    intro t ht
    obtain ⟨x, hx, rfl⟩ := mem_ranked_tasks ht
    show computeRatio x.priority x.demand * x.demand = (x.priority : ℚ)
    rw [computeRatio, if_pos (hd x hx)]
    exact div_mul_cancel₀ _ (ne_of_gt (hd x hx))
  have hpl2 : ∀ t ∈ l, 0 ≤ (t.priority : ℚ) := by
    intro t ht
    obtain ⟨x, hx, rfl⟩ := mem_ranked_tasks ht
    exact Int.cast_nonneg.mpr (hp x hx)
  have hcaps' : ∀ p ∈ pl', 0 ≤ p.2 ∧ p.2 ≤ p.1.demand :=
    fun p hq => hcaps p (hpp.mem_iff.mpr hq)
  have hsum' : (pl'.map Prod.snd).sum = (pl.map Prod.snd).sum :=
    ((hpp.map Prod.snd).sum_eq).symm
  have hval' : specAllocValue pl' = specAllocValue pl := by
    unfold specAllocValue
    exact ((hpp.map _).sum_eq).symm
  have hdp : ∀ p ∈ pl', 0 < p.1.demand := by
    intro p hq
    exact hdl p.1 (hfst' ▸ List.mem_map_of_mem Prod.fst hq)
  have hrp : ∀ p ∈ pl', p.1.ratio * p.1.demand = (p.1.priority : ℚ) := by
    intro p hq
    exact hrl p.1 (hfst' ▸ List.mem_map_of_mem Prod.fst hq)
  rw [← hval', specAllocValue_eq_dotRatio pl' hdp hrp, hfst']
  have hforall := pairs_caps_forall₂ pl' hcaps'
  rw [hfst'] at hforall
  have hbr := dotRatio_le_allocValue hforall capacity (ratioBound l) hC
    (ratioBound_nonneg l) (rank_sorted _) hdl hrl hpl2 (le_ratioBound l)
  have hmax : max ((pl'.map Prod.snd).sum - capacity) 0 = 0 := by
    apply max_eq_right
    rw [hsum']
    linarith
  rw [hmax, zero_mul, add_zero] at hbr
  exact hbr

/-- Witness for the amended claim C1 theorem at the spec's example
scenario, with the all-zero alternative allocation. -/
theorem greedy_allocation_optimal_witness :
    specAllocValue [(mkTask ⟨"A", 60, 60⟩, 0), (mkTask ⟨"B", 50, 100⟩, 0),
        (mkTask ⟨"C", 30, 30⟩, 0)]
      ≤ (runAllocator 100 [⟨"A", 60, 60⟩, ⟨"B", 50, 100⟩, ⟨"C", 30, 30⟩]).valueAchieved :=
  greedy_allocation_optimal 100 [⟨"A", 60, 60⟩, ⟨"B", 50, 100⟩, ⟨"C", 30, 30⟩]
    (by norm_num)
    (by intro x hx; fin_cases hx <;> norm_num)
    (by intro x hx; fin_cases hx <;> norm_num)
    [(mkTask ⟨"A", 60, 60⟩, 0), (mkTask ⟨"B", 50, 100⟩, 0), (mkTask ⟨"C", 30, 30⟩, 0)]
    rfl
    (by intro p hp; fin_cases hp <;> norm_num [mkTask])
    (by norm_num)

end BandwidthAlloc
